import Mathlib

/-!
Verification of the crates.io dump minifier against its specification.

The development shallowly embeds `src/main.rs`:

* the binary codec (`Crate`, `Crate.to_vec`, `Crate.from_vec`);
* the aggregation pipeline (`process`): version-row ingestion, dependency
  counting, ranking, and the keyword/category lookup tables.

Machine integers (`u32`) are modelled as `Nat`; a cast `as u32` appears as
`% 2 ^ 32`, and `u32::to_le_bytes` only ever reads the low 32 bits, which
`toLE4` reflects.  Rust `String`s are modelled as their UTF-8 byte sequences
(`List Nat`); `String::from_utf8` re-validation in `from_vec` always succeeds
on the encoder outputs that the claims quantify over and is not modelled.
Fallible reads (index-out-of-bounds panics in `from_vec`) are modelled by
`Option`.
-/

/-- Little-endian 4-byte encoding of the low 32 bits of `n`
(`u32::to_le_bytes`; `as u32` casts are absorbed because only the low
32 bits are read). -/
def toLE4 (n : Nat) : List Nat :=
  [n % 256, n / 256 % 256, n / 65536 % 256, n / 16777216 % 256]

/-- Model of the `read_u32!` cursor step of `from_vec`: consume four bytes,
little-endian; fewer than four bytes left is the out-of-bounds panic. -/
def readU32 : List Nat → Option (Nat × List Nat)
  | b0 :: b1 :: b2 :: b3 :: rest =>
      some (b0 + 256 * b1 + 65536 * b2 + 16777216 * b3, rest)
  | _ => none

/-- Model of the `read_string!` step of `from_vec`: a `u32` byte count
followed by that many raw bytes; a declared length running past the end of
the buffer is the out-of-bounds panic. -/
def readStr (data : List Nat) : Option (List Nat × List Nat) :=
  match readU32 data with
  | none => none
  | some (len, rest) =>
      if len ≤ rest.length then some (rest.take len, rest.drop len) else none

/-- Reading `n` consecutive `u32` values (the keyword/category id loops of
`from_vec`). -/
def readU32s : Nat → List Nat → Option (List Nat × List Nat)
  | 0, data => some ([], data)
  | n + 1, data =>
      match readU32 data with
      | none => none
      | some (k, rest) =>
          match readU32s n rest with
          | none => none
          | some (ks, r) => some (k :: ks, r)

/-- Model of the five identical optional-string blocks of `from_vec`: the
`!data[cursor..].is_empty()` guard (whose else-branch is `unreachable!`,
i.e. a panic), then a length-prefixed string, with the empty string decoded
as `None`. -/
def readOpt (data : List Nat) : Option (Option (List Nat) × List Nat) :=
  if data.isEmpty then none
  else
    match readStr data with
    | none => none
    | some (s, r) => some (if s = [] then none else some s, r)

/-- The `Crate` struct of `main.rs`; strings are UTF-8 byte sequences. -/
structure Crate where
  name : List Nat
  repository : Option (List Nat)
  homepage : Option (List Nat)
  documentation : Option (List Nat)
  description : List Nat
  latest_stable_version : Option (List Nat)
  latest_version : Option (List Nat)
  categories : List Nat
  keywords : List Nat
  num_versions : Nat
  order : Nat
  deriving DecidableEq

/-- `Crate::to_vec`, mirroring the imperative accumulation of `byte_array`:
the `extend` calls, the two id loops, and the `add_str` closure applied to
`name`, `description`, and the five optionals via `unwrap_or_default()`. -/
def Crate.to_vec (c : Crate) : List Nat :=
  let a := toLE4 c.order
  let a := a ++ toLE4 c.num_versions
  let a := a ++ toLE4 c.keywords.length
  let a := c.keywords.foldl (fun acc k => acc ++ toLE4 k) a
  let a := a ++ toLE4 c.categories.length
  let a := c.categories.foldl (fun acc k => acc ++ toLE4 k) a
  let addStr := fun (acc : List Nat) (s : List Nat) => acc ++ toLE4 s.length ++ s
  let a := addStr a c.name
  let a := addStr a c.description
  let a := addStr a (c.repository.getD [])
  let a := addStr a (c.homepage.getD [])
  let a := addStr a (c.documentation.getD [])
  let a := addStr a (c.latest_stable_version.getD [])
  let a := addStr a (c.latest_version.getD [])
  a

/-- `Crate::from_vec`: sequential cursor reads in the fixed field order;
`none` models the panic on truncated input (including the `unreachable!`
branches guarding the five optional fields). Trailing bytes are ignored,
as in the source. -/
def Crate.from_vec (data : List Nat) : Option Crate := do
  let (order, r) ← readU32 data
  let (num_versions, r) ← readU32 r
  let (klen, r) ← readU32 r
  let (keywords, r) ← readU32s klen r
  let (clen, r) ← readU32 r
  let (categories, r) ← readU32s clen r
  let (name, r) ← readStr r
  let (description, r) ← readStr r
  let (repository, r) ← readOpt r
  let (homepage, r) ← readOpt r
  let (documentation, r) ← readOpt r
  let (latest_stable_version, r) ← readOpt r
  let (latest_version, _) ← readOpt r
  pure { name, repository, homepage, documentation, description,
         latest_stable_version, latest_version, categories, keywords,
         num_versions, order }

/-- Length-prefixed string, as the spec describes it: a `u32` byte count
followed by the raw bytes, no terminator, no padding. -/
def strLP (s : List Nat) : List Nat := toLE4 s.length ++ s

/-- Spec-side rendering of an optional string: an absent optional string is
a zero-length string. -/
def optStr (o : Option (List Nat)) : List Nat :=
  match o with
  | none => []
  | some s => s

/-- Modelled from the spec's words (§4.4 record layout), for comparison with
`Crate.to_vec`: the concatenation
`order, num_versions, keyword_count, keyword_id[..], category_count,
category_id[..], name, description, repository, homepage, documentation,
latest_stable_version, latest_version`, all integers little-endian `u32`,
all strings length-prefixed. -/
def layoutSpec (c : Crate) : List Nat :=
  toLE4 c.order ++ toLE4 c.num_versions ++
    toLE4 c.keywords.length ++ c.keywords.flatMap toLE4 ++
    toLE4 c.categories.length ++ c.categories.flatMap toLE4 ++
    strLP c.name ++ strLP c.description ++
    strLP (optStr c.repository) ++ strLP (optStr c.homepage) ++
    strLP (optStr c.documentation) ++
    strLP (optStr c.latest_stable_version) ++ strLP (optStr c.latest_version)

/-- A `Crate` value representable on the wire: every `u32`-typed field is in
`u32` range and every length that gets a `u32` length prefix fits in `u32`
(in Rust the first group is enforced by the types, the second by memory). -/
def Crate.WF (c : Crate) : Prop :=
  c.order < 2 ^ 32 ∧ c.num_versions < 2 ^ 32 ∧
  c.keywords.length < 2 ^ 32 ∧ c.categories.length < 2 ^ 32 ∧
  (∀ k ∈ c.keywords, k < 2 ^ 32) ∧ (∀ k ∈ c.categories, k < 2 ^ 32) ∧
  c.name.length < 2 ^ 32 ∧ c.description.length < 2 ^ 32 ∧
  (c.repository.getD []).length < 2 ^ 32 ∧
  (c.homepage.getD []).length < 2 ^ 32 ∧
  (c.documentation.getD []).length < 2 ^ 32 ∧
  (c.latest_stable_version.getD []).length < 2 ^ 32 ∧
  (c.latest_version.getD []).length < 2 ^ 32

instance (c : Crate) : Decidable c.WF := by
  unfold Crate.WF; infer_instance

/-- Collapse performed by the decoder on each optional field: a present but
empty string becomes `none`. -/
def collapseOpt (o : Option (List Nat)) : Option (List Nat) :=
  match o with
  | none => none
  | some s => if s = [] then none else some s

/-- An optional string field that is either absent or present and non-empty
(the side condition of the round-trip property). -/
def noneOrNonEmpty (o : Option (List Nat)) : Prop :=
  match o with
  | none => True
  | some s => s ≠ []

instance (o : Option (List Nat)) : Decidable (noneOrNonEmpty o) := by
  unfold noneOrNonEmpty
  cases o <;> infer_instance

/-- Concrete crate used to witness the round-trip claim. -/
def crateW : Crate :=
  { name := [97], repository := some [104, 116, 116, 112], homepage := none,
    documentation := some [100], description := [],
    latest_stable_version := some [49, 46, 48, 46, 48], latest_version := none,
    categories := [3, 1], keywords := [7], num_versions := 5, order := 2 }

/-- Concrete crate used to witness the lossy-`None` claim: one absent
optional field and one present-but-empty optional field. -/
def crate9 : Crate :=
  { name := [98], repository := none, homepage := some [],
    documentation := some [], description := [100],
    latest_stable_version := none, latest_version := some [],
    categories := [], keywords := [], num_versions := 0, order := 0 }

/-- A pre-release identifier of a semantic version: numeric or
alphanumeric (`semver::Prerelease` splits on dots; ASCII bytes). -/
inductive PreId where
  | num : Nat → PreId
  | alpha : List Nat → PreId
  deriving DecidableEq

/-- `semver::Version` (major.minor.patch plus pre-release identifiers);
build metadata is omitted from the model as no claim concerns it. -/
structure Version where
  major : Nat
  minor : Nat
  patch : Nat
  pre : List PreId
  deriving DecidableEq

/-- Key of a pre-release identifier under semantic-version precedence:
numeric identifiers order below alphanumeric ones, numeric compare
numerically, alphanumeric compare in ASCII order. -/
def preIdKey : PreId → Nat ⊕ₗ List Nat
  | .num n => toLex (Sum.inl n)
  | .alpha s => toLex (Sum.inr s)

/-- Lexicographic key implementing semantic-version precedence as
`semver::Version`'s order does: major, minor, patch, then the pre-release
component, where an empty pre-release ranks above every non-empty one and
non-empty ones compare identifier by identifier (a proper prefix ranks
lower). -/
def Version.key (v : Version) :
    Lex (Nat × Lex (Nat × Lex (Nat × Lex (Bool × List (Nat ⊕ₗ List Nat))))) :=
  toLex (v.major, toLex (v.minor, toLex (v.patch,
    toLex (v.pre.isEmpty, v.pre.map preIdKey))))

/-- `a < b` in semantic-version precedence (the comparison the source
performs through `semver::Version`'s `Ord`). -/
def vlt (a b : Version) : Prop := a.key < b.key

instance (a b : Version) : Decidable (vlt a b) := by
  unfold vlt; infer_instance

/-- `db_dump::crates::Row`, restricted to the fields the program reads. -/
structure CrateRow where
  id : Nat
  name : List Nat
  description : List Nat
  repository : Option (List Nat)
  homepage : Option (List Nat)
  documentation : Option (List Nat)
  deriving DecidableEq

/-- `db_dump::versions::Row`, restricted to the fields the program reads;
`created_at` is the publication timestamp. -/
structure VersionRow where
  id : Nat
  crate_id : Nat
  num : Version
  has_lib : Bool
  created_at : Nat
  deriving DecidableEq

/-- `db_dump::dependencies::Row`: consuming version, target crate, and the
dependency kind (normal/dev/build — carried along but never inspected). -/
structure DepRow where
  version_id : Nat
  crate_id : Nat
  kind : Nat
  deriving DecidableEq

/-- A `default_versions` row: crate id and its reported version count. -/
structure DefaultVersionRow where
  crate_id : Nat
  num_versions : Option Nat
  deriving DecidableEq

/-- A `crates_keywords` association row. -/
structure CrateKeywordRow where
  crate_id : Nat
  keyword_id : Nat
  deriving DecidableEq

/-- A `crates_categories` association row. -/
structure CrateCategoryRow where
  crate_id : Nat
  category_id : Nat
  deriving DecidableEq

/-- A `keywords` table row: keyword id and its name. -/
structure KeywordRow where
  id : Nat
  keyword : List Nat
  deriving DecidableEq

/-- A `categories` table row: category id and its name. -/
structure CategoryRow where
  id : Nat
  category : List Nat
  deriving DecidableEq

/-- The row streams delivered by the dump source, one list per registered
callback of `db_dump::Loader`. -/
structure Input where
  crates : List CrateRow
  versions : List VersionRow
  dependencies : List DepRow
  default_versions : List DefaultVersionRow
  crates_keywords : List CrateKeywordRow
  crates_categories : List CrateCategoryRow
  keywords : List KeywordRow
  categories : List CategoryRow
  deriving DecidableEq

/-- `BTreeMap` model: an association list kept strictly sorted by key.
`mInsertWith f k v` inserts `(k, v)` if `k` is absent and replaces the
stored value `w` by `f w` if present — the one primitive covering
`insert`, `entry().or_insert`, `entry().or_default`, and
`entry().and_modify()` as used in `process`. -/
def mInsertWith {β : Type} (f : β → β) (k : Nat) (v : β) :
    List (Nat × β) → List (Nat × β)
  | [] => [(k, v)]
  | (k', v') :: rest =>
    if k < k' then (k, v) :: (k', v') :: rest
    else if k = k' then (k', f v') :: rest
    else (k', v') :: mInsertWith f k v rest

/-- `BTreeMap::get`. -/
def mGet {β : Type} (k : Nat) : List (Nat × β) → Option β
  | [] => none
  | (k', v') :: rest => if k = k' then some v' else mGet k rest

/-- `BTreeSet<CrateId>` model (only membership and insertion are used, so
the representation order is irrelevant). -/
def sInsert (x : Nat) (s : List Nat) : List Nat :=
  if x ∈ s then s else x :: s

/-- The `entry(crate_id).and_modify(replace if strictly greater).or_insert`
pattern used for `stable_versions` and `versions` in the versions
callback. -/
def updMax (p : Nat) (v : Version) (m : List (Nat × Version)) :
    List (Nat × Version) :=
  mInsertWith (fun old => if vlt old v then v else old) p v m

/-- The aggregation state built by the `versions` callback of `process`. -/
structure IngestSt where
  most_recent : List (Nat × VersionRow)
  libs : List Nat
  stable_versions : List (Nat × Version)
  versions : List (Nat × Version)
  deriving DecidableEq

/-- One `versions` callback invocation: route `row.num` to the stable or
pre-release maximum by `row.num.pre.is_empty()`, record `has_lib`, and keep
the most recently published version (replaced only on a strictly greater
`created_at`). -/
def versionStep (st : IngestSt) (row : VersionRow) : IngestSt :=
  let st :=
    if row.num.pre = [] then
      { st with stable_versions := updMax row.crate_id row.num st.stable_versions }
    else
      { st with versions := updMax row.crate_id row.num st.versions }
  let st :=
    if row.has_lib then { st with libs := sInsert row.crate_id st.libs } else st
  let mr :=
    mInsertWith (fun old => if old.created_at < row.created_at then row else old)
      row.crate_id row st.most_recent
  { st with most_recent := mr }

/-- The whole `versions` table pass. -/
def ingest (rows : List VersionRow) : IngestSt :=
  rows.foldl versionStep ⟨[], [], [], []⟩

/-- The `crates` callback: `BTreeSet<Row>` keyed by crate id (re-inserting
an equal element leaves the set unchanged). -/
def cratesMap (rows : List CrateRow) : List (Nat × CrateRow) :=
  rows.foldl (fun m r => mInsertWith (fun old => old) r.id r m) []

/-- The `default_versions` callback: `version_count.insert(crate_id,
num_versions.unwrap_or_default())` — a plain replacing insert. -/
def versionCountMap (rows : List DefaultVersionRow) : List (Nat × Nat) :=
  rows.foldl
    (fun m r =>
      mInsertWith (fun _x => r.num_versions.getD 0) r.crate_id
        (r.num_versions.getD 0) m) []

/-- The `crates_keywords` callback: `entry(crate_id).or_default().push`. -/
def crateKeywordsMap (rows : List CrateKeywordRow) : List (Nat × List Nat) :=
  rows.foldl
    (fun m r =>
      mInsertWith (fun old => old ++ [r.keyword_id]) r.crate_id [r.keyword_id] m)
    []

/-- The `crates_categories` callback: `entry(crate_id).or_default().push`. -/
def crateCategoriesMap (rows : List CrateCategoryRow) : List (Nat × List Nat) :=
  rows.foldl
    (fun m r =>
      mInsertWith (fun old => old ++ [r.category_id]) r.crate_id [r.category_id] m)
    []

/-- The id→name lookup-table fold shared by the `keywords` and `categories`
callbacks: `map.insert(row.id, row.name)` on every row (a `BTreeMap`
replacing insert). -/
def nameTable (rows : List (Nat × List Nat)) : List (Nat × List Nat) :=
  rows.foldl (fun m e => mInsertWith (fun _x => e.2) e.1 e.2 m) []

/-- The `all_keywords` table of `process`. -/
def allKeywords (rows : List KeywordRow) : List (Nat × List Nat) :=
  nameTable (rows.map fun r => (r.id, r.keyword))

/-- The `all_categories` table of `process`. -/
def allCategories (rows : List CategoryRow) : List (Nat × List Nat) :=
  nameTable (rows.map fun r => (r.id, r.category))

/-- State of the dependency loop of `process`: the per-run set of seen
`(VersionId, CrateId)` pairs and the count map. -/
structure DepSt where
  seen : List (Nat × Nat)
  count : List (Nat × Nat)
  deriving DecidableEq

/-- One iteration of the dependency loop: the edge is counted iff its
consuming version is most-recent and `(version_id, crate_id)` was not seen
before (the `&&` short-circuit means the pair is recorded only in that
case, as in the source). -/
def depStep (mr : List Nat) (st : DepSt) (d : DepRow) : DepSt :=
  if d.version_id ∈ mr ∧ (d.version_id, d.crate_id) ∉ st.seen then
    { seen := (d.version_id, d.crate_id) :: st.seen,
      count := mInsertWith (fun old => old + 1) d.crate_id 1 st.count }
  else st

/-- The dependency loop from an arbitrary starting state. -/
def depFold (mr : List Nat) (deps : List DepRow) (st : DepSt) : DepSt :=
  deps.foldl (depStep mr) st

/-- The count map produced by the dependency loop of `process`. -/
def depCounts (mr : List Nat) (deps : List DepRow) : List (Nat × Nat) :=
  (depFold mr deps ⟨[], []⟩).count

/-- Insertion step of the ranking sort (descending by count). -/
def insDesc (e : Nat × Nat) : List (Nat × Nat) → List (Nat × Nat)
  | [] => [e]
  | h :: t => if h.2 ≤ e.2 then e :: h :: t else h :: insDesc e t

/-- Model of `all_crates.sort_unstable_by_key(Reverse(count))`: a sort by
count descending.  Rust's unstable sort guarantees only the key order and
leaves ties unspecified; this model is the stable insertion sort, which is
also exactly what Rust's implementation performs on short slices. -/
def sortDesc (l : List (Nat × Nat)) : List (Nat × Nat) :=
  l.foldr insDesc []

/-- Decimal ASCII digits of `n`. -/
def natDecimal (n : Nat) : List Nat :=
  (Nat.toDigits 10 n).map Char.toNat

/-- Rendering of one pre-release identifier. -/
def preIdRender : PreId → List Nat
  | .num n => natDecimal n
  | .alpha s => s

/-- `semver::Version::to_string()`: `major.minor.patch` plus
`-pre.release.ids` when the pre-release component is non-empty (build
metadata omitted from the model). -/
def vRender (v : Version) : List Nat :=
  natDecimal v.major ++ [46] ++ natDecimal v.minor ++ [46] ++
    natDecimal v.patch ++
    (if v.pre = [] then []
     else 45 :: List.intercalate [46] (v.pre.map preIdRender))

/-- The filtered crate set of `process`
(`crates.into_iter().filter(|c| libs.contains(&c.id))`). -/
def cratesFiltered (inp : Input) : List (Nat × CrateRow) :=
  (cratesMap inp.crates).filter (fun e => e.2.id ∈ (ingest inp.versions).libs)

/-- The final `count` map of `process`: dependency counts plus an explicit
zero entry (`or_insert(0)`) for every library-capable crate. -/
def countMap (inp : Input) : List (Nat × Nat) :=
  let ing := ingest inp.versions
  let mrIds := ing.most_recent.map (fun e => e.2.id)
  let count0 := depCounts mrIds inp.dependencies
  (cratesFiltered inp).foldl (fun m e => mInsertWith (fun old => old) e.2.id 0 m)
    count0

/-- `all_crates`: the count map entries sorted by count descending. -/
def rankedEntries (inp : Input) : List (Nat × Nat) :=
  sortDesc (countMap inp)

/-- Construction of one output `Crate` record (the `out.push(Crate { .. })`
of `process`); `order` is `count as u32`. -/
def mkCrate (cnt : Nat) (r : CrateRow) (ing : IngestSt) (vc : List (Nat × Nat))
    (ck cc : List (Nat × List Nat)) : Crate :=
  { order := cnt % 2 ^ 32,
    name := r.name,
    repository := r.repository,
    homepage := r.homepage,
    documentation := r.documentation,
    description := r.description,
    latest_stable_version := (mGet r.id ing.stable_versions).map vRender,
    latest_version := (mGet r.id ing.versions).map vRender,
    categories := (mGet r.id cc).getD [],
    keywords := (mGet r.id ck).getD [],
    num_versions := (mGet r.id vc).getD 0 }

/-- Body of the output loop of `process` (the `if let Some(crat) =
crates.get(&id)` push): emit `h e r` when the lookup `g e` succeeds, skip
the entry otherwise. -/
def pushSome {α γ β : Type} (g : α → Option γ) (h : α → γ → β)
    (out : List β) (e : α) : List β :=
  match g e with
  | some r => out ++ [h e r]
  | none => out

/-- The ranked output sequence of `process`: walk `all_crates` in sorted
order, emit a `Crate` for every id found in the filtered crate set, skip
the rest. -/
def processModel (inp : Input) : List Crate :=
  let ing := ingest inp.versions
  let cratesF := cratesFiltered inp
  let vc := versionCountMap inp.default_versions
  let ck := crateKeywordsMap inp.crates_keywords
  let cc := crateCategoriesMap inp.crates_categories
  (rankedEntries inp).foldl
    (pushSome (fun e => mGet e.1 cratesF)
      (fun e r => mkCrate e.2 r ing vc ck cc)) []

/-- Byte serialization of a lookup table: flat concatenation of
`id:u32, len:u32, name` entries (the `keywords`/`categories` files). -/
def tableBytes (m : List (Nat × List Nat)) : List Nat :=
  m.flatMap (fun e => toLE4 e.1 ++ toLE4 e.2.length ++ e.2)

/-- The emitted `keywords` file. -/
def keywordsFile (inp : Input) : List Nat :=
  tableBytes (allKeywords inp.keywords)

/-- The emitted `categories` file. -/
def categoriesFile (inp : Input) : List Nat :=
  tableBytes (allCategories inp.categories)

/-- Keys of a map model. -/
def mKeys {β : Type} (m : List (Nat × β)) : List Nat := m.map (·.1)

/-- The `BTreeMap` representation invariant: keys strictly ascending (this is
also the `into_iter` enumeration order). -/
def mKeysSorted {β : Type} (m : List (Nat × β)) : Prop :=
  m.Pairwise (fun a b => a.1 < b.1)

/-- Count stored for a target, absent meaning zero. -/
def mCnt (t : Nat) (m : List (Nat × Nat)) : Nat := (mGet t m).getD 0

/-- The `(VersionId, CrateId)` pair of each dependency row. -/
def depPairs (deps : List DepRow) : List (Nat × Nat) :=
  deps.map (fun d => (d.version_id, d.crate_id))

/-- Modelled from the spec's words: the number of distinct
`(version, target)` pairs over edges whose consuming version is
most-recent and whose target is `t`. -/
def countSpec (mr : List Nat) (deps : List DepRow) (t : Nat) : Nat :=
  ((depPairs deps).toFinset.filter (fun e => e.1 ∈ mr ∧ e.2 = t)).card

/-- The running-maximum fold restricted to version rows satisfying `p`
(the two branches of the `match v.pre.is_empty()` in the versions
callback). -/
def selFold (p : VersionRow → Prop) [DecidablePred p]
    (rows : List VersionRow) : List (Nat × Version) :=
  rows.foldl (fun m r => if p r then updMax r.crate_id r.num m else m) []

/-- The version numbers of the rows of crate `pid` satisfying `p`. -/
def selNums (p : VersionRow → Prop) [DecidablePred p]
    (rows : List VersionRow) (pid : Nat) : List Version :=
  (rows.filter (fun r => decide (p r ∧ r.crate_id = pid))).map (·.num)

/-- The stable version numbers of crate `pid` (empty pre-release). -/
def stableNums (rows : List VersionRow) (pid : Nat) : List Version :=
  selNums (fun r => r.num.pre = []) rows pid

/-- The pre-release version numbers of crate `pid` (non-empty
pre-release). -/
def preNums (rows : List VersionRow) (pid : Nat) : List Version :=
  selNums (fun r => r.num.pre ≠ []) rows pid

/-- Two library crates with equal dependency counts (both zero) whose
ascending-id enumeration order disagrees with ascending-name order: crate 1
is named "b", crate 2 is named "a". -/
def cexInput : Input :=
  { crates := [
      { id := 1, name := [98], description := [], repository := none,
        homepage := none, documentation := none },
      { id := 2, name := [97], description := [], repository := none,
        homepage := none, documentation := none }],
    versions := [
      { id := 10, crate_id := 1, num := ⟨1, 0, 0, []⟩, has_lib := true,
        created_at := 5 },
      { id := 20, crate_id := 2, num := ⟨1, 0, 0, []⟩, has_lib := true,
        created_at := 6 }],
    dependencies := [],
    default_versions := [],
    crates_keywords := [],
    crates_categories := [],
    keywords := [],
    categories := [] }

/-- A richer concrete input used by witnesses: crate 1 ("b") with two
stable versions and a pre-release, crate 2 ("a"), and crate 3 ("c")
without any library target; duplicate dependency kinds, an edge from a
non-most-recent version, and a duplicated keyword-table id. -/
def exInput : Input :=
  { crates := [
      { id := 1, name := [98], description := [100], repository := none,
        homepage := none, documentation := none },
      { id := 2, name := [97], description := [], repository := some [114],
        homepage := none, documentation := none },
      { id := 3, name := [99], description := [], repository := none,
        homepage := none, documentation := none }],
    versions := [
      { id := 10, crate_id := 1, num := ⟨1, 0, 0, []⟩, has_lib := true,
        created_at := 1 },
      { id := 11, crate_id := 1, num := ⟨1, 2, 0, []⟩, has_lib := true,
        created_at := 3 },
      { id := 12, crate_id := 1,
        num := ⟨2, 0, 0, [PreId.alpha [97, 108, 112, 104, 97], PreId.num 1]⟩,
        has_lib := false, created_at := 2 },
      { id := 20, crate_id := 2, num := ⟨0, 1, 0, []⟩, has_lib := true,
        created_at := 1 },
      { id := 30, crate_id := 3, num := ⟨1, 0, 0, []⟩, has_lib := false,
        created_at := 1 }],
    dependencies := [
      { version_id := 11, crate_id := 2, kind := 0 },
      { version_id := 11, crate_id := 2, kind := 2 },
      { version_id := 10, crate_id := 2, kind := 0 },
      { version_id := 11, crate_id := 3, kind := 0 },
      { version_id := 20, crate_id := 1, kind := 0 }],
    default_versions := [
      { crate_id := 1, num_versions := some 3 },
      { crate_id := 2, num_versions := none }],
    crates_keywords := [
      { crate_id := 1, keyword_id := 5 },
      { crate_id := 1, keyword_id := 6 }],
    crates_categories := [
      { crate_id := 2, category_id := 9 }],
    keywords := [
      { id := 5, keyword := [107] },
      { id := 5, keyword := [108] },
      { id := 6, keyword := [109] }],
    categories := [
      { id := 9, category := [110] }] }

theorem foldl_extend_toLE4 (l : List Nat) (a : List Nat) :
    l.foldl (fun acc k => acc ++ toLE4 k) a = a ++ l.flatMap toLE4 := by
  induction l generalizing a with
  | nil => simp
  | cons x xs ih => simp [List.foldl_cons, ih, List.append_assoc]

theorem to_vec_eq_layout (c : Crate) : c.to_vec = layoutSpec c := by
  cases c with
  | mk name repository homepage documentation description lsv lv categories
      keywords num_versions order =>
    simp only [Crate.to_vec, layoutSpec, strLP, optStr, foldl_extend_toLE4,
      List.append_assoc]
    cases repository <;> cases homepage <;> cases documentation <;>
      cases lsv <;> cases lv <;> simp [Option.getD, optStr]

theorem readU32_toLE4 (n : Nat) (rest : List Nat) (h : n < 2 ^ 32) :
    readU32 (toLE4 n ++ rest) = some (n, rest) := by
  simp only [toLE4, List.cons_append, List.nil_append, readU32]
  congr 2
  omega

theorem readStr_strLP (s : List Nat) (rest : List Nat) (h : s.length < 2 ^ 32) :
    readStr (strLP s ++ rest) = some (s, rest) := by
  simp only [strLP, List.append_assoc, readStr, readU32_toLE4 s.length (s ++ rest) h]
  rw [if_pos (by simp)]
  simp

theorem readU32s_flat (l : List Nat) (rest : List Nat) (h : ∀ k ∈ l, k < 2 ^ 32) :
    readU32s l.length (l.flatMap toLE4 ++ rest) = some (l, rest) := by
  induction l with
  | nil => simp [readU32s]
  | cons x xs ih =>
    have hx : x < 2 ^ 32 := h x (by simp)
    simp only [List.length_cons, List.flatMap_cons, List.append_assoc, readU32s,
      readU32_toLE4 x _ hx]
    rw [ih (fun k hk => h k (by simp [hk]))]

theorem readOpt_strLP (s : List Nat) (rest : List Nat) (h : s.length < 2 ^ 32) :
    readOpt (strLP s ++ rest) = some (if s = [] then none else some s, rest) := by
  have hne : (strLP s ++ rest).isEmpty = false := by
    simp [strLP, toLE4]
  simp only [readOpt, hne, Bool.false_eq_true, if_false, readStr_strLP s rest h]

theorem readOpt_strLP_nil (s : List Nat) (h : s.length < 2 ^ 32) :
    readOpt (strLP s) = some (if s = [] then none else some s, []) := by
  rw [show strLP s = strLP s ++ [] by rw [List.append_nil]]
  exact readOpt_strLP s [] h

theorem optStr_eq_getD (o : Option (List Nat)) : optStr o = o.getD [] := by
  cases o <;> simp [optStr]

theorem if_optStr_eq_collapseOpt (o : Option (List Nat)) :
    (if optStr o = [] then none else some (optStr o)) = collapseOpt o := by
  cases o <;> simp [optStr, collapseOpt]

theorem from_vec_to_vec (c : Crate) (h : c.WF) :
    Crate.from_vec c.to_vec =
      some { c with
        repository := collapseOpt c.repository,
        homepage := collapseOpt c.homepage,
        documentation := collapseOpt c.documentation,
        latest_stable_version := collapseOpt c.latest_stable_version,
        latest_version := collapseOpt c.latest_version } := by
  obtain ⟨h1, h2, h3, h4, h5, h6, h7, h8, h9, h10, h11, h12, h13⟩ := h
  have h9' : (optStr c.repository).length < 2 ^ 32 := by rwa [optStr_eq_getD]
  have h10' : (optStr c.homepage).length < 2 ^ 32 := by rwa [optStr_eq_getD]
  have h11' : (optStr c.documentation).length < 2 ^ 32 := by rwa [optStr_eq_getD]
  have h12' : (optStr c.latest_stable_version).length < 2 ^ 32 := by
    rwa [optStr_eq_getD]
  have h13' : (optStr c.latest_version).length < 2 ^ 32 := by rwa [optStr_eq_getD]
  rw [to_vec_eq_layout]
  simp only [layoutSpec, List.append_assoc, Crate.from_vec, bind, Option.bind,
    readU32_toLE4 _ _ h1, readU32_toLE4 _ _ h2, readU32_toLE4 _ _ h3,
    readU32_toLE4 _ _ h4, readU32s_flat _ _ h5, readU32s_flat _ _ h6,
    readStr_strLP _ _ h7, readStr_strLP _ _ h8, readOpt_strLP _ _ h9',
    readOpt_strLP _ _ h10', readOpt_strLP _ _ h11', readOpt_strLP _ _ h12',
    readOpt_strLP_nil _ h13', if_optStr_eq_collapseOpt, pure]

theorem collapseOpt_eq_self (o : Option (List Nat)) (h : noneOrNonEmpty o) :
    collapseOpt o = o := by
  cases o with
  | none => rfl
  | some s => simp [collapseOpt, noneOrNonEmpty] at h ⊢; exact h

/-- C1: for every `Crate` (wire-representable: `u32` fields and lengths in
`u32` range) whose optional string fields are each `None` or `Some` of a
non-empty string, `Crate::from_vec (Crate::to_vec c)` succeeds and returns a
value field-for-field equal to `c` — including `order`, `num_versions`, the
keyword and category id sequences, `name`, and `description`. -/
theorem claim_c1_roundtrip (c : Crate) (hwf : c.WF)
    (h1 : noneOrNonEmpty c.repository) (h2 : noneOrNonEmpty c.homepage)
    (h3 : noneOrNonEmpty c.documentation)
    (h4 : noneOrNonEmpty c.latest_stable_version)
    (h5 : noneOrNonEmpty c.latest_version) :
    Crate.from_vec c.to_vec = some c := by
  rw [from_vec_to_vec c hwf]
  rw [collapseOpt_eq_self _ h1, collapseOpt_eq_self _ h2,
    collapseOpt_eq_self _ h3, collapseOpt_eq_self _ h4,
    collapseOpt_eq_self _ h5]

theorem claim_c1_roundtrip_witness :
    crateW.WF ∧ Crate.from_vec crateW.to_vec = some crateW :=
  ⟨by decide,
   claim_c1_roundtrip crateW (by decide) (by decide) (by decide) (by decide)
     (by decide) (by decide)⟩

/-- C2: `Crate::to_vec` produces exactly the concatenation, in the fixed
order of the spec, of `order` and `num_versions` as little-endian `u32`, the
keyword count followed by the keyword ids, the category count followed by
the category ids, then the seven strings length-prefixed with no terminator
and no padding, an absent optional string being encoded as a zero-length
string. -/
theorem claim_c2_layout (c : Crate) : c.to_vec = layoutSpec c :=
  to_vec_eq_layout c

/-- C9: for every wire-representable `Crate`, decoding the encoding yields
`none` — never `some ""` — for each optional string field that was `none`,
and likewise for a field that was `some ""` (the deliberate lossy
collapse; the absent field is written as a zero-length string). -/
theorem claim_c9_lossy_none (c : Crate) (hwf : c.WF) :
    ∃ d, Crate.from_vec c.to_vec = some d ∧
      ((c.repository = none ∨ c.repository = some []) → d.repository = none) ∧
      ((c.homepage = none ∨ c.homepage = some []) → d.homepage = none) ∧
      ((c.documentation = none ∨ c.documentation = some []) →
        d.documentation = none) ∧
      ((c.latest_stable_version = none ∨ c.latest_stable_version = some []) →
        d.latest_stable_version = none) ∧
      ((c.latest_version = none ∨ c.latest_version = some []) →
        d.latest_version = none) := by
  refine ⟨_, from_vec_to_vec c hwf, ?_, ?_, ?_, ?_, ?_⟩ <;>
    rintro (h | h) <;> simp [h, collapseOpt]

theorem claim_c9_lossy_none_witness :
    ∃ d, Crate.from_vec crate9.to_vec = some d ∧
      ((crate9.repository = none ∨ crate9.repository = some []) →
        d.repository = none) ∧
      ((crate9.homepage = none ∨ crate9.homepage = some []) →
        d.homepage = none) ∧
      ((crate9.documentation = none ∨ crate9.documentation = some []) →
        d.documentation = none) ∧
      ((crate9.latest_stable_version = none ∨
          crate9.latest_stable_version = some []) →
        d.latest_stable_version = none) ∧
      ((crate9.latest_version = none ∨ crate9.latest_version = some []) →
        d.latest_version = none) :=
  claim_c9_lossy_none crate9 (by decide)

theorem mem_insertWith_key {β : Type} (f : β → β) (k : Nat) (v : β)
    (m : List (Nat × β)) (x : Nat × β) (hx : x ∈ mInsertWith f k v m) :
    x.1 = k ∨ x ∈ m := by
  induction m with
  | nil =>
    simp only [mInsertWith, List.mem_singleton] at hx
    exact Or.inl (by rw [hx])
  | cons hd t ih =>
    obtain ⟨k', v'⟩ := hd
    simp only [mInsertWith] at hx
    by_cases h1 : k < k'
    · rw [if_pos h1] at hx
      rcases List.mem_cons.mp hx with h | h
      · exact Or.inl (by rw [h])
      · exact Or.inr h
    · rw [if_neg h1] at hx
      by_cases h2 : k = k'
      · rw [if_pos h2] at hx
        rcases List.mem_cons.mp hx with h | h
        · exact Or.inl (by rw [h, h2])
        · exact Or.inr (List.mem_cons_of_mem _ h)
      · rw [if_neg h2] at hx
        rcases List.mem_cons.mp hx with h | h
        · exact Or.inr (by rw [h]; exact List.mem_cons_self _ _)
        · rcases ih h with h' | h'
          · exact Or.inl h'
          · exact Or.inr (List.mem_cons_of_mem _ h')

theorem mKeysSorted_insertWith {β : Type} (f : β → β) (k : Nat) (v : β)
    (m : List (Nat × β)) (hs : mKeysSorted m) :
    mKeysSorted (mInsertWith f k v m) := by
  induction m with
  | nil => simp [mKeysSorted, mInsertWith]
  | cons hd t ih =>
    obtain ⟨k', v'⟩ := hd
    rw [mKeysSorted, List.pairwise_cons] at hs
    obtain ⟨h1, h2⟩ := hs
    simp only [mInsertWith]
    by_cases hk1 : k < k'
    · rw [if_pos hk1]
      rw [mKeysSorted, List.pairwise_cons]
      refine ⟨?_, ?_⟩
      · intro y hy
        rcases List.mem_cons.mp hy with h | h
        · rw [h]; exact hk1
        · exact lt_trans hk1 (h1 y h)
      · rw [List.pairwise_cons]; exact ⟨h1, h2⟩
    · rw [if_neg hk1]
      by_cases hk2 : k = k'
      · rw [if_pos hk2]
        rw [mKeysSorted, List.pairwise_cons]
        exact ⟨h1, h2⟩
      · rw [if_neg hk2]
        rw [mKeysSorted, List.pairwise_cons]
        refine ⟨?_, ih h2⟩
        intro y hy
        rcases mem_insertWith_key f k v t y hy with h | h
        · rw [h]; omega
        · exact h1 y h

theorem mGet_insertWith_ne {β : Type} (f : β → β) (k j : Nat) (v : β)
    (m : List (Nat × β)) (hj : j ≠ k) :
    mGet j (mInsertWith f k v m) = mGet j m := by
  induction m with
  | nil => simp [mInsertWith, mGet, hj]
  | cons hd t ih =>
    obtain ⟨k', v'⟩ := hd
    simp only [mInsertWith]
    by_cases h1 : k < k'
    · rw [if_pos h1]
      simp [mGet, hj]
    · rw [if_neg h1]
      by_cases h2 : k = k'
      · rw [if_pos h2]
        subst h2
        simp [mGet, hj]
      · rw [if_neg h2]
        by_cases h3 : j = k'
        · simp [mGet, h3]
        · simp [mGet, h3, ih]

theorem mGet_eq_none_of_lt {β : Type} (k : Nat) (m : List (Nat × β))
    (h : ∀ y ∈ m, k < y.1) : mGet k m = none := by
  induction m with
  | nil => rfl
  | cons hd t ih =>
    obtain ⟨k', v'⟩ := hd
    have hk : k ≠ k' := by
      have := h (k', v') (List.mem_cons_self _ _)
      simp at this
      omega
    simp only [mGet, if_neg hk]
    exact ih (fun y hy => h y (List.mem_cons_of_mem _ hy))

theorem mGet_insertWith_self {β : Type} (f : β → β) (k : Nat) (v : β)
    (m : List (Nat × β)) (hs : mKeysSorted m) :
    mGet k (mInsertWith f k v m) = some (((mGet k m).map f).getD v) := by
  induction m with
  | nil => simp [mInsertWith, mGet]
  | cons hd t ih =>
    obtain ⟨k', v'⟩ := hd
    rw [mKeysSorted, List.pairwise_cons] at hs
    obtain ⟨h1, h2⟩ := hs
    simp only [mInsertWith]
    by_cases hk1 : k < k'
    · rw [if_pos hk1]
      have hne : k ≠ k' := by omega
      have hnone : mGet k ((k', v') :: t) = none := by
        refine mGet_eq_none_of_lt k _ ?_
        intro y hy
        rcases List.mem_cons.mp hy with h | h
        · rw [h]; exact hk1
        · exact lt_trans hk1 (h1 y h)
      rw [hnone]
      simp [mGet]
    · rw [if_neg hk1]
      by_cases hk2 : k = k'
      · rw [if_pos hk2]
        subst hk2
        simp [mGet]
      · rw [if_neg hk2]
        simp only [mGet, if_neg hk2]
        exact ih h2

theorem mem_mKeys_insertWith {β : Type} (f : β → β) (k j : Nat) (v : β)
    (m : List (Nat × β)) :
    j ∈ mKeys (mInsertWith f k v m) ↔ j = k ∨ j ∈ mKeys m := by
  induction m with
  | nil => simp [mInsertWith, mKeys]
  | cons hd t ih =>
    obtain ⟨k', v'⟩ := hd
    simp only [mInsertWith]
    by_cases h1 : k < k'
    · rw [if_pos h1]
      simp [mKeys]
    · rw [if_neg h1]
      by_cases h2 : k = k'
      · rw [if_pos h2]
        subst h2
        simp [mKeys]
      · rw [if_neg h2]
        simp only [mKeys, List.map_cons, List.mem_cons] at ih ⊢
        rw [ih]
        tauto

theorem mGet_of_mem {β : Type} (k : Nat) (v : β) (m : List (Nat × β))
    (hs : mKeysSorted m) (hm : (k, v) ∈ m) : mGet k m = some v := by
  induction m with
  | nil => cases hm
  | cons hd t ih =>
    obtain ⟨k', v'⟩ := hd
    rw [mKeysSorted, List.pairwise_cons] at hs
    obtain ⟨h1, h2⟩ := hs
    rcases List.mem_cons.mp hm with h | h
    · obtain ⟨hk, hv⟩ := Prod.mk.injEq k v k' v' ▸ h
      subst hk
      subst hv
      simp [mGet]
    · have hk : k ≠ k' := by
        have := h1 (k, v) h
        simp at this
        omega
      simp only [mGet, if_neg hk]
      exact ih h2 h

theorem mem_of_mGet {β : Type} (k : Nat) (v : β) (m : List (Nat × β))
    (h : mGet k m = some v) : (k, v) ∈ m := by
  induction m with
  | nil => cases h
  | cons hd t ih =>
    obtain ⟨k', v'⟩ := hd
    by_cases hk : k = k'
    · subst hk
      have hv : v' = v := by simpa [mGet] using h
      subst hv
      exact List.mem_cons_self _ _
    · simp only [mGet, if_neg hk] at h
      exact List.mem_cons_of_mem _ (ih h)

theorem foldl_preserves_sorted {α β : Type} (step : List (Nat × β) → α → List (Nat × β))
    (hstep : ∀ m e, mKeysSorted m → mKeysSorted (step m e))
    (l : List α) (m0 : List (Nat × β)) (h : mKeysSorted m0) :
    mKeysSorted (l.foldl step m0) := by
  induction l generalizing m0 with
  | nil => exact h
  | cons e t ih => exact ih (step m0 e) (hstep m0 e h)

theorem nameTable_snoc (l : List (Nat × List Nat)) (e : Nat × List Nat) :
    nameTable (l ++ [e]) = mInsertWith (fun _x => e.2) e.1 e.2 (nameTable l) := by
  simp [nameTable, List.foldl_append]

theorem nameTable_sorted (l : List (Nat × List Nat)) :
    mKeysSorted (nameTable l) :=
  foldl_preserves_sorted _ (fun m e hm => mKeysSorted_insertWith _ _ _ _ hm) l []
    (by simp [mKeysSorted])

theorem nameTable_get (l : List (Nat × List Nat)) (k : Nat) :
    mGet k (nameTable l) =
      ((l.filter (fun e => e.1 == k)).getLast?).map (·.2) := by
  induction l using List.reverseRecOn with
  | nil => simp [nameTable, mGet]
  | append_singleton l e ih =>
    rw [nameTable_snoc]
    by_cases hk : k = e.1
    · subst hk
      rw [mGet_insertWith_self _ _ _ _ (nameTable_sorted l)]
      rw [List.filter_append]
      simp only [List.filter_cons, List.filter_nil, beq_self_eq_true, if_pos]
      cases mGet e.1 (nameTable l) <;> simp [List.getLast?_concat]
    · rw [mGet_insertWith_ne _ _ _ _ _ hk]
      rw [ih, List.filter_append]
      have he : (e.1 == k) = false := by
        simp only [beq_eq_false_iff_ne, ne_eq]
        exact fun h => hk h.symm
      simp [List.filter_cons, he]

/-- C7 counterexample: two keyword rows with the same id 1 and names "a"
then "b"; the table stores "b" (the last row observed), not "a" (the first),
because the source uses `BTreeMap::insert`, which replaces an existing
entry. -/
theorem claim_c7_counterexample :
    mGet 1 (allKeywords [⟨1, [97]⟩, ⟨1, [98]⟩]) ≠ some [97] ∧
    mGet 1 (allKeywords [⟨1, [97]⟩, ⟨1, [98]⟩]) = some [98] := by
  refine ⟨?_, by decide⟩
  decide

/-- C7 as amended: the id→name tables are built by replacing insertion
(last-write-wins): the name stored for an id is the one from the last row
observed with that id, and earlier rows for that id are overwritten. -/
theorem claim_c7_last_write_wins (krows : List KeywordRow)
    (crows : List CategoryRow) (i : Nat) :
    mGet i (allKeywords krows) =
      ((krows.filter (fun r => r.id == i)).getLast?).map (·.keyword) ∧
    mGet i (allCategories crows) =
      ((crows.filter (fun r => r.id == i)).getLast?).map (·.category) := by
  refine ⟨?_, ?_⟩
  · rw [allKeywords, nameTable_get]
    rw [List.filter_map (fun r : KeywordRow => (r.id, r.keyword))]
    rw [List.getLast?_map]
    rw [Option.map_map]
    rfl
  · rw [allCategories, nameTable_get]
    rw [List.filter_map (fun r : CategoryRow => (r.id, r.category))]
    rw [List.getLast?_map]
    rw [Option.map_map]
    rfl

/-- C10: in the emitted keyword and category tables (and hence in the
serialized `keywords`/`categories` files, which are their in-order flat
concatenation), entries appear in strictly ascending id order, with exactly
one entry per distinct id observed in the source rows. -/
theorem claim_c10_table_order (inp : Input) :
    (allKeywords inp.keywords).Pairwise (fun a b => a.1 < b.1) ∧
    (∀ i, i ∈ mKeys (allKeywords inp.keywords) ↔
      i ∈ inp.keywords.map (·.id)) ∧
    keywordsFile inp = tableBytes (allKeywords inp.keywords) ∧
    (allCategories inp.categories).Pairwise (fun a b => a.1 < b.1) ∧
    (∀ i, i ∈ mKeys (allCategories inp.categories) ↔
      i ∈ inp.categories.map (·.id)) ∧
    categoriesFile inp = tableBytes (allCategories inp.categories) := by
  have keymem : ∀ (l : List (Nat × List Nat)) (i : Nat),
      i ∈ mKeys (nameTable l) ↔ i ∈ l.map (·.1) := by
    intro l
    induction l using List.reverseRecOn with
    | nil => intro i; simp [nameTable, mKeys]
    | append_singleton l e ih =>
      intro i
      rw [nameTable_snoc, mem_mKeys_insertWith, ih, List.map_append]
      simp [or_comm]
  refine ⟨nameTable_sorted _, ?_, rfl, nameTable_sorted _, ?_, rfl⟩
  · intro i
    rw [allKeywords, keymem, List.map_map]
    rfl
  · intro i
    rw [allCategories, keymem, List.map_map]
    rfl

theorem mCnt_insertOne (t k : Nat) (m : List (Nat × Nat)) (hs : mKeysSorted m) :
    mCnt t (mInsertWith (fun old => old + 1) k 1 m) =
      mCnt t m + (if k = t then 1 else 0) := by
  by_cases hk : k = t
  · subst hk
    rw [mCnt, mGet_insertWith_self _ _ _ _ hs]
    cases h : mGet k m <;> simp [mCnt, h]
  · rw [mCnt, mGet_insertWith_ne _ _ _ _ _ (fun h => hk h.symm)]
    simp [mCnt, hk]

theorem depStep_sorted (mr : List Nat) (st : DepSt) (d : DepRow)
    (hs : mKeysSorted st.count) : mKeysSorted (depStep mr st d).count := by
  rw [depStep]
  split
  · exact mKeysSorted_insertWith _ _ _ _ hs
  · exact hs

theorem depFold_sorted (mr : List Nat) (deps : List DepRow) (st : DepSt)
    (hs : mKeysSorted st.count) : mKeysSorted (depFold mr deps st).count := by
  induction deps generalizing st with
  | nil => exact hs
  | cons d rest ih => exact ih (depStep mr st d) (depStep_sorted mr st d hs)

theorem count_insert_seen (p : Nat × Nat) (S : Finset (Nat × Nat))
    (mr : List Nat) (seen : List (Nat × Nat)) (t : Nat)
    (hmr : p.1 ∈ mr) (hseen : p ∉ seen) :
    ((insert p S).filter (fun e => e.1 ∈ mr ∧ e.2 = t ∧ e ∉ seen)).card =
      (if p.2 = t then 1 else 0) +
      (S.filter (fun e => e.1 ∈ mr ∧ e.2 = t ∧ e ∉ p :: seen)).card := by
  have hq' : ∀ e : Nat × Nat, (e.1 ∈ mr ∧ e.2 = t ∧ e ∉ p :: seen) ↔
      ((e.1 ∈ mr ∧ e.2 = t ∧ e ∉ seen) ∧ e ≠ p) := by
    intro e
    simp only [List.mem_cons, not_or]
    tauto
  have hfilter' : S.filter (fun e => e.1 ∈ mr ∧ e.2 = t ∧ e ∉ p :: seen) =
      (S.filter (fun e => e.1 ∈ mr ∧ e.2 = t ∧ e ∉ seen)).erase p := by
    ext e
    simp only [Finset.mem_filter, Finset.mem_erase, hq' e]
    tauto
  by_cases hpt : p.2 = t
  · have hqp : p.1 ∈ mr ∧ p.2 = t ∧ p ∉ seen := ⟨hmr, hpt, hseen⟩
    rw [Finset.filter_insert, if_pos hqp, hfilter', if_pos hpt]
    by_cases hpX : p ∈ S.filter (fun e => e.1 ∈ mr ∧ e.2 = t ∧ e ∉ seen)
    · rw [Finset.card_erase_of_mem hpX]
      rw [Finset.insert_eq_self.mpr hpX]
      have hpos : 0 < (S.filter (fun e => e.1 ∈ mr ∧ e.2 = t ∧ e ∉ seen)).card :=
        Finset.card_pos.mpr ⟨p, hpX⟩
      omega
    · rw [Finset.card_insert_of_not_mem hpX, Finset.erase_eq_of_not_mem hpX]
      omega
  · have hqp : ¬(p.1 ∈ mr ∧ p.2 = t ∧ p ∉ seen) := fun h => hpt h.2.1
    rw [Finset.filter_insert, if_neg hqp, hfilter', if_neg hpt]
    have hpX : p ∉ S.filter (fun e => e.1 ∈ mr ∧ e.2 = t ∧ e ∉ seen) := by
      simp only [Finset.mem_filter]
      tauto
    rw [Finset.erase_eq_of_not_mem hpX]
    omega

theorem count_insert_skip (p : Nat × Nat) (S : Finset (Nat × Nat))
    (mr : List Nat) (seen : List (Nat × Nat)) (t : Nat)
    (hc : ¬(p.1 ∈ mr ∧ p ∉ seen)) :
    ((insert p S).filter (fun e => e.1 ∈ mr ∧ e.2 = t ∧ e ∉ seen)).card =
      (S.filter (fun e => e.1 ∈ mr ∧ e.2 = t ∧ e ∉ seen)).card := by
  have hqp : ¬(p.1 ∈ mr ∧ p.2 = t ∧ p ∉ seen) := by tauto
  rw [Finset.filter_insert, if_neg hqp]

theorem depFold_cnt (mr : List Nat) (deps : List DepRow)
    (seen : List (Nat × Nat)) (cnt : List (Nat × Nat))
    (hs : mKeysSorted cnt) (t : Nat) :
    mCnt t (depFold mr deps ⟨seen, cnt⟩).count =
      mCnt t cnt +
        ((depPairs deps).toFinset.filter
          (fun e => e.1 ∈ mr ∧ e.2 = t ∧ e ∉ seen)).card := by
  induction deps generalizing seen cnt with
  | nil => simp [depFold, depPairs]
  | cons d rest ih =>
    rw [show depFold mr (d :: rest) ⟨seen, cnt⟩ =
      depFold mr rest (depStep mr ⟨seen, cnt⟩ d) from rfl]
    rw [show depPairs (d :: rest) =
      (d.version_id, d.crate_id) :: depPairs rest from rfl]
    rw [List.toFinset_cons]
    by_cases hc : d.version_id ∈ mr ∧ (d.version_id, d.crate_id) ∉ seen
    · have hstep : depStep mr ⟨seen, cnt⟩ d =
          ⟨(d.version_id, d.crate_id) :: seen,
            mInsertWith (fun old => old + 1) d.crate_id 1 cnt⟩ := by
        rw [depStep, if_pos hc]

      rw [hstep]
      rw [ih _ _ (mKeysSorted_insertWith _ _ _ _ hs)]
      rw [mCnt_insertOne _ _ _ hs]
      rw [count_insert_seen (d.version_id, d.crate_id) _ mr seen t hc.1 hc.2]
      have hsnd : ((d.version_id, d.crate_id).2 = t) = (d.crate_id = t) := rfl
      simp only [hsnd]
      omega
    · have hstep : depStep mr ⟨seen, cnt⟩ d = ⟨seen, cnt⟩ := by
        rw [depStep, if_neg hc]
      rw [hstep]
      rw [ih _ _ hs]
      rw [count_insert_skip (d.version_id, d.crate_id) _ mr seen t hc]

/-- C3: a dependency edge `(v, target)` increments `target`'s count iff `v`
is in the most-recent-version set and the pair `(v, target)` has not been
counted earlier in the run (first conjunct: processing one more edge), and
consequently the final count of each target equals the number of distinct
`(version, target)` pairs over edges whose version is most-recent, with
duplicate edges — e.g. differing only in dependency kind — counted once
(second conjunct). -/
theorem claim_c3_dedup_count (mr : List Nat) (deps : List DepRow) (d : DepRow)
    (t : Nat) :
    (mCnt t (depCounts mr (deps ++ [d])) =
      mCnt t (depCounts mr deps) +
        (if d.version_id ∈ mr ∧
            (d.version_id, d.crate_id) ∉ (depFold mr deps ⟨[], []⟩).seen ∧
            d.crate_id = t
         then 1 else 0)) ∧
    mCnt t (depCounts mr deps) = countSpec mr deps t := by
  have hsorted : ∀ deps', mKeysSorted (depFold mr deps' (⟨[], []⟩ : DepSt)).count :=
    fun deps' => depFold_sorted mr deps' _ (by simp [mKeysSorted])
  have hfinal : ∀ deps', mCnt t (depCounts mr deps') = countSpec mr deps' t := by
    intro deps'
    rw [depCounts, depFold_cnt mr deps' [] [] (by simp [mKeysSorted]) t]
    rw [countSpec]
    have h0 : mCnt t ([] : List (Nat × Nat)) = 0 := rfl
    rw [h0, Nat.zero_add]
    have hq : (depPairs deps').toFinset.filter
        (fun e => e.1 ∈ mr ∧ e.2 = t ∧ e ∉ ([] : List (Nat × Nat))) =
        (depPairs deps').toFinset.filter (fun e => e.1 ∈ mr ∧ e.2 = t) := by
      refine Finset.filter_congr ?_
      intro e _
      simp
    rw [hq]
  refine ⟨?_, hfinal deps⟩
  have happ : depFold mr (deps ++ [d]) (⟨[], []⟩ : DepSt) =
      depStep mr (depFold mr deps ⟨[], []⟩) d := by
    rw [depFold, depFold, List.foldl_append]
    rfl
  rw [depCounts, happ]
  by_cases hc : d.version_id ∈ mr ∧
      (d.version_id, d.crate_id) ∉ (depFold mr deps ⟨[], []⟩).seen
  · have hcount : (depStep mr (depFold mr deps ⟨[], []⟩) d).count =
        mInsertWith (fun old => old + 1) d.crate_id 1
          (depFold mr deps ⟨[], []⟩).count := by
      rw [depStep, if_pos hc]
    rw [hcount]
    rw [mCnt_insertOne _ _ _ (hsorted deps)]
    have hiff : (d.version_id ∈ mr ∧
        (d.version_id, d.crate_id) ∉ (depFold mr deps ⟨[], []⟩).seen ∧
        d.crate_id = t) ↔ (d.crate_id = t) := by tauto
    rw [if_congr hiff rfl rfl, depCounts]
  · have hcount : (depStep mr (depFold mr deps ⟨[], []⟩) d).count =
        (depFold mr deps ⟨[], []⟩).count := by
      rw [depStep, if_neg hc]
    rw [hcount, depCounts]
    have hneg : ¬(d.version_id ∈ mr ∧
        (d.version_id, d.crate_id) ∉ (depFold mr deps ⟨[], []⟩).seen ∧
        d.crate_id = t) := by tauto
    rw [if_neg hneg]
    omega

theorem mem_insDesc (e x : Nat × Nat) (l : List (Nat × Nat)) :
    x ∈ insDesc e l ↔ x = e ∨ x ∈ l := by
  induction l with
  | nil => simp [insDesc]
  | cons h t ih =>
    rw [insDesc]
    by_cases hc : h.2 ≤ e.2
    · rw [if_pos hc]
      simp
    · rw [if_neg hc]
      simp only [List.mem_cons, ih]
      tauto

theorem insDesc_pairwise (x : Nat × Nat) (l : List (Nat × Nat))
    (hl : l.Pairwise (fun a b => b.2 < a.2 ∨ (b.2 = a.2 ∧ a.1 < b.1)))
    (hx : ∀ y ∈ l, x.1 < y.1) :
    (insDesc x l).Pairwise (fun a b => b.2 < a.2 ∨ (b.2 = a.2 ∧ a.1 < b.1)) := by
  induction l with
  | nil => simp [insDesc]
  | cons h t ih =>
    rw [List.pairwise_cons] at hl
    obtain ⟨h1, h2⟩ := hl
    rw [insDesc]
    by_cases hc : h.2 ≤ x.2
    · rw [if_pos hc]
      rw [List.pairwise_cons]
      refine ⟨?_, List.pairwise_cons.mpr ⟨h1, h2⟩⟩
      intro y hy
      rcases List.mem_cons.mp hy with rfl | hy'
      · rcases Nat.lt_or_ge y.2 x.2 with hlt | hge
        · exact Or.inl hlt
        · exact Or.inr ⟨Nat.le_antisymm hc hge, hx y (List.mem_cons_self _ _)⟩
      · rcases h1 y hy' with hlt | ⟨heq, _⟩
        · exact Or.inl (Nat.lt_of_lt_of_le hlt hc)
        · rcases Nat.lt_or_ge y.2 x.2 with h3 | h3
          · exact Or.inl h3
          · refine Or.inr ⟨Nat.le_antisymm (heq ▸ hc) h3, ?_⟩
            exact hx y (List.mem_cons_of_mem _ hy')
    · rw [if_neg hc]
      rw [List.pairwise_cons]
      refine ⟨?_, ih h2 (fun y hy => hx y (List.mem_cons_of_mem _ hy))⟩
      intro y hy
      rcases (mem_insDesc x y t).mp hy with rfl | hy'
      · exact Or.inl (Nat.lt_of_not_le hc)
      · exact h1 y hy'

theorem mem_sortDesc (l : List (Nat × Nat)) (y : Nat × Nat) :
    y ∈ sortDesc l ↔ y ∈ l := by
  induction l with
  | nil => simp [sortDesc]
  | cons x t ih =>
    rw [show sortDesc (x :: t) = insDesc x (sortDesc t) from rfl]
    rw [mem_insDesc]
    simp only [List.mem_cons]
    rw [ih]

theorem sortDesc_pairwise (l : List (Nat × Nat))
    (hl : l.Pairwise (fun a b => a.1 < b.1)) :
    (sortDesc l).Pairwise (fun a b => b.2 < a.2 ∨ (b.2 = a.2 ∧ a.1 < b.1)) := by
  induction l with
  | nil => simp [sortDesc]
  | cons x t ih =>
    rw [List.pairwise_cons] at hl
    obtain ⟨h1, h2⟩ := hl
    rw [show sortDesc (x :: t) = insDesc x (sortDesc t) from rfl]
    refine insDesc_pairwise x (sortDesc t) (ih h2) ?_
    intro y hy
    exact h1 y ((mem_sortDesc t y).mp hy)

theorem countMap_sorted (inp : Input) : mKeysSorted (countMap inp) := by
  simp only [countMap]
  refine foldl_preserves_sorted _
    (fun m e hm => mKeysSorted_insertWith _ _ _ _ hm) _ _ ?_
  rw [depCounts]
  exact depFold_sorted _ _ _ (by simp [mKeysSorted])

theorem foldl_push_eq_filterMap {α γ β : Type} (g : α → Option γ)
    (h : α → γ → β) (l : List α) (acc : List β) :
    l.foldl (pushSome g h) acc
    = acc ++ l.filterMap (fun e => (g e).map (h e)) := by
  induction l generalizing acc with
  | nil => simp
  | cons e t ih =>
    rw [List.foldl_cons]
    cases hg : g e with
    | none =>
      rw [show pushSome g h acc e = acc from by rw [pushSome, hg]]
      simp only [ih, List.filterMap_cons, hg, Option.map_none']
    | some r =>
      rw [show pushSome g h acc e = acc ++ [h e r] from by rw [pushSome, hg]]
      simp only [ih, List.filterMap_cons, hg, Option.map_some']
      simp [List.append_assoc]

theorem processModel_eq_filterMap (inp : Input) :
    processModel inp = (rankedEntries inp).filterMap
      (fun e => (mGet e.1 (cratesFiltered inp)).map
        (fun r => mkCrate e.2 r (ingest inp.versions)
          (versionCountMap inp.default_versions)
          (crateKeywordsMap inp.crates_keywords)
          (crateCategoriesMap inp.crates_categories))) := by
  simp only [processModel]
  rw [foldl_push_eq_filterMap]
  rw [List.nil_append]

/-- C6 counterexample: on `cexInput` (two library crates with equal
dependency counts, where crate id 1 is named "b" and crate id 2 is named
"a") the emitted sequence has two equal-`order` packages in descending
name order, so ties are not arranged by ascending package name. -/
theorem claim_c6_counterexample :
    ¬ (processModel cexInput).Pairwise
        (fun a b => a.order = b.order → a.name ≤ b.name) := by
  decide

/-- C6 as amended (no more than the counterexample forces): the code sorts
by count only — there is no name-based secondary key.  The output is
generated from the count-map entries sorted by count descending, and
entries with equal count stay in the count map's ascending-crate-id
enumeration order (in this model of `sort_unstable_by_key`; Rust's
unstable sort promises nothing about ties, and coincides with this model
on short slices, where it performs an insertion sort). -/
theorem claim_c6_tie_order (inp : Input) :
    processModel inp = (rankedEntries inp).filterMap
      (fun e => (mGet e.1 (cratesFiltered inp)).map
        (fun r => mkCrate e.2 r (ingest inp.versions)
          (versionCountMap inp.default_versions)
          (crateKeywordsMap inp.crates_keywords)
          (crateCategoriesMap inp.crates_categories))) ∧
    (rankedEntries inp).Pairwise
      (fun a b => b.2 ≤ a.2 ∧ (a.2 = b.2 → a.1 < b.1)) := by
  refine ⟨processModel_eq_filterMap inp, ?_⟩
  have h := sortDesc_pairwise (countMap inp) (countMap_sorted inp)
  refine h.imp ?_
  rintro a b (hlt | ⟨heq, hid⟩)
  · exact ⟨Nat.le_of_lt hlt, fun h2 => by omega⟩
  · exact ⟨Nat.le_of_eq heq, fun _ => hid⟩

theorem mem_insertWith_val {β : Type} (f : β → β) (k : Nat) (v : β)
    (m : List (Nat × β)) (x : Nat × β) (hx : x ∈ mInsertWith f k v m) :
    x = (k, v) ∨ x ∈ m ∨ ∃ w, (k, w) ∈ m ∧ x = (k, f w) := by
  induction m with
  | nil =>
    simp only [mInsertWith, List.mem_singleton] at hx
    exact Or.inl hx
  | cons hd t ih =>
    obtain ⟨k', v'⟩ := hd
    simp only [mInsertWith] at hx
    by_cases h1 : k < k'
    · rw [if_pos h1] at hx
      rcases List.mem_cons.mp hx with h | h
      · exact Or.inl h
      · exact Or.inr (Or.inl h)
    · rw [if_neg h1] at hx
      by_cases h2 : k = k'
      · rw [if_pos h2] at hx
        subst h2
        rcases List.mem_cons.mp hx with h | h
        · exact Or.inr (Or.inr ⟨v', List.mem_cons_self _ _, h⟩)
        · exact Or.inr (Or.inl (List.mem_cons_of_mem _ h))
      · rw [if_neg h2] at hx
        rcases List.mem_cons.mp hx with h | h
        · exact Or.inr (Or.inl (by rw [h]; exact List.mem_cons_self _ _))
        · rcases ih h with h' | h' | ⟨w, hw, h'⟩
          · exact Or.inl h'
          · exact Or.inr (Or.inl (List.mem_cons_of_mem _ h'))
          · exact Or.inr (Or.inr ⟨w, List.mem_cons_of_mem _ hw, h'⟩)

theorem depFold_val_le (mr : List Nat) (deps : List DepRow)
    (seen : List (Nat × Nat)) (cnt : List (Nat × Nat)) (B : Nat)
    (hb : ∀ e ∈ cnt, e.2 ≤ B) :
    ∀ e ∈ (depFold mr deps ⟨seen, cnt⟩).count, e.2 ≤ B + deps.length := by
  induction deps generalizing seen cnt B with
  | nil =>
    intro e he
    have := hb e he
    omega
  | cons d rest ih =>
    intro e he
    rw [show depFold mr (d :: rest) ⟨seen, cnt⟩ =
      depFold mr rest (depStep mr ⟨seen, cnt⟩ d) from rfl] at he
    by_cases hc : d.version_id ∈ mr ∧ (d.version_id, d.crate_id) ∉ seen
    · have hstep : depStep mr ⟨seen, cnt⟩ d =
          ⟨(d.version_id, d.crate_id) :: seen,
            mInsertWith (fun old => old + 1) d.crate_id 1 cnt⟩ := by
        rw [depStep, if_pos hc]
      rw [hstep] at he
      have hb' : ∀ x ∈ mInsertWith (fun old => old + 1) d.crate_id 1 cnt,
          x.2 ≤ B + 1 := by
        intro x hx
        rcases mem_insertWith_val _ _ _ _ _ hx with h | h | ⟨w, hw, h⟩
        · rw [h]; omega
        · have := hb x h; omega
        · have := hb (d.crate_id, w) hw
          rw [h]
          simp at this ⊢
          omega
      have := ih _ _ (B + 1) hb' e he
      simp at this ⊢
      omega
    · have hstep : depStep mr ⟨seen, cnt⟩ d = ⟨seen, cnt⟩ := by
        rw [depStep, if_neg hc]
      rw [hstep] at he
      have := ih _ _ B hb e he
      simp at this ⊢
      omega

theorem foldl_orInsert_val_le {α : Type} (key : α → Nat) (l : List α)
    (m : List (Nat × Nat)) (B : Nat) (hb : ∀ e ∈ m, e.2 ≤ B) :
    ∀ e ∈ l.foldl (fun m e => mInsertWith (fun old => old) (key e) 0 m) m,
      e.2 ≤ B := by
  induction l generalizing m with
  | nil => exact hb
  | cons x t ih =>
    refine ih _ ?_
    intro e he
    rcases mem_insertWith_val _ _ _ _ _ he with h | h | ⟨w, hw, h⟩
    · rw [h]; exact Nat.zero_le B
    · exact hb e h
    · rw [h]; exact hb (key x, w) hw

theorem countMap_val_le (inp : Input) :
    ∀ e ∈ countMap inp, e.2 ≤ inp.dependencies.length := by
  simp only [countMap]
  refine foldl_orInsert_val_le (fun e : Nat × CrateRow => e.2.id) _ _ _ ?_
  rw [depCounts]
  have h := depFold_val_le
    ((ingest inp.versions).most_recent.map (fun e => e.2.id))
    inp.dependencies [] [] 0 (by intro e he; cases he)
  intro e he
  have := h e he
  omega

/-- C8: across the entire ranked output sequence the `order` field is
non-increasing (sorted by dependency count descending; the post-sort
filter to library-capable packages preserves the order).  The hypothesis
bounds the number of dependency rows by `u32` range so that the
`count as u32` cast in the emitted `order` is lossless — every count is at
most the number of dependency rows. -/
theorem claim_c8_monotonic (inp : Input)
    (hlen : inp.dependencies.length < 2 ^ 32) :
    (processModel inp).Pairwise (fun a b => b.order ≤ a.order) := by
  rw [processModel_eq_filterMap]
  have hpair := sortDesc_pairwise (countMap inp) (countMap_sorted inp)
  have hdesc : (rankedEntries inp).Pairwise (fun a b => b.2 ≤ a.2) := by
    refine hpair.imp ?_
    rintro a b (h | ⟨h, _⟩) <;> omega
  have hbound : ∀ e ∈ rankedEntries inp, e.2 ≤ inp.dependencies.length :=
    fun e he => countMap_val_le inp e ((mem_sortDesc _ _).mp he)
  have hR : (rankedEntries inp).Pairwise (fun a b =>
      ∀ x ∈ (mGet a.1 (cratesFiltered inp)).map
        (fun r => mkCrate a.2 r (ingest inp.versions)
          (versionCountMap inp.default_versions)
          (crateKeywordsMap inp.crates_keywords)
          (crateCategoriesMap inp.crates_categories)),
      ∀ y ∈ (mGet b.1 (cratesFiltered inp)).map
        (fun r => mkCrate b.2 r (ingest inp.versions)
          (versionCountMap inp.default_versions)
          (crateKeywordsMap inp.crates_keywords)
          (crateCategoriesMap inp.crates_categories)),
      y.order ≤ x.order) := by
    refine hdesc.imp_of_mem ?_
    intro a b ha hb hab x hx y hy
    rcases Option.mem_map.mp hx with ⟨ra, _, hxa⟩
    rcases Option.mem_map.mp hy with ⟨rb, _, hyb⟩
    have hxo : x.order = a.2 % 2 ^ 32 := by rw [← hxa]; rfl
    have hyo : y.order = b.2 % 2 ^ 32 := by rw [← hyb]; rfl
    have hamod : a.2 % 2 ^ 32 = a.2 :=
      Nat.mod_eq_of_lt (Nat.lt_of_le_of_lt (hbound a ha) hlen)
    have hbmod : b.2 % 2 ^ 32 = b.2 :=
      Nat.mod_eq_of_lt (Nat.lt_of_le_of_lt (hbound b hb) hlen)
    rw [hxo, hyo, hamod, hbmod]
    exact hab
  exact hR.filterMap
    (fun e : Nat × Nat => (mGet e.1 (cratesFiltered inp)).map
      (fun r => mkCrate e.2 r (ingest inp.versions)
        (versionCountMap inp.default_versions)
        (crateKeywordsMap inp.crates_keywords)
        (crateCategoriesMap inp.crates_categories)))
    (fun a a' h => h)

theorem claim_c8_monotonic_witness :
    (processModel exInput).Pairwise (fun a b => b.order ≤ a.order) :=
  claim_c8_monotonic exInput (by decide)

theorem vlt_irrefl (v : Version) : ¬ vlt v v := lt_irrefl _

theorem vlt_trans {a b c : Version} (h1 : vlt a b) (h2 : vlt b c) : vlt a c :=
  lt_trans h1 h2

theorem versionStep_stable (st : IngestSt) (row : VersionRow) :
    (versionStep st row).stable_versions =
      if row.num.pre = [] then
        updMax row.crate_id row.num st.stable_versions
      else st.stable_versions := by
  simp only [versionStep]
  split <;> split <;> rfl

theorem versionStep_versions (st : IngestSt) (row : VersionRow) :
    (versionStep st row).versions =
      if row.num.pre = [] then st.versions
      else updMax row.crate_id row.num st.versions := by
  simp only [versionStep]
  split <;> split <;> rfl

theorem versionStep_libs (st : IngestSt) (row : VersionRow) :
    (versionStep st row).libs =
      if row.has_lib then sInsert row.crate_id st.libs else st.libs := by
  simp only [versionStep]
  split <;> split <;> rfl

theorem ingest_stable (rows : List VersionRow) :
    (ingest rows).stable_versions = selFold (fun r => r.num.pre = []) rows := by
  rw [ingest, selFold]
  suffices h : ∀ (st : IngestSt),
      (rows.foldl versionStep st).stable_versions =
        rows.foldl
          (fun m r => if r.num.pre = [] then updMax r.crate_id r.num m else m)
          st.stable_versions from h ⟨[], [], [], []⟩
  induction rows with
  | nil => intro st; rfl
  | cons r t ih =>
    intro st
    rw [List.foldl_cons, List.foldl_cons, ih, versionStep_stable]

theorem ingest_versions (rows : List VersionRow) :
    (ingest rows).versions = selFold (fun r => r.num.pre ≠ []) rows := by
  rw [ingest, selFold]
  suffices h : ∀ (st : IngestSt),
      (rows.foldl versionStep st).versions =
        rows.foldl
          (fun m r => if r.num.pre ≠ [] then updMax r.crate_id r.num m else m)
          st.versions from h ⟨[], [], [], []⟩
  induction rows with
  | nil => intro st; rfl
  | cons r t ih =>
    intro st
    rw [List.foldl_cons, List.foldl_cons, ih, versionStep_versions]
    by_cases hp : r.num.pre = [] <;> simp [hp]

theorem ingest_libs (rows : List VersionRow) :
    (ingest rows).libs =
      rows.foldl
        (fun s r => if r.has_lib then sInsert r.crate_id s else s) [] := by
  rw [ingest]
  suffices h : ∀ (st : IngestSt),
      (rows.foldl versionStep st).libs =
        rows.foldl
          (fun s r => if r.has_lib then sInsert r.crate_id s else s)
          st.libs from h ⟨[], [], [], []⟩
  induction rows with
  | nil => intro st; rfl
  | cons r t ih =>
    intro st
    rw [List.foldl_cons, List.foldl_cons, ih, versionStep_libs]

theorem selFold_sorted (p : VersionRow → Prop) [DecidablePred p]
    (rows : List VersionRow) : mKeysSorted (selFold p rows) := by
  rw [selFold]
  refine foldl_preserves_sorted _ ?_ _ _ (by simp [mKeysSorted])
  intro m r hm
  by_cases hp : p r
  · rw [if_pos hp]
    exact mKeysSorted_insertWith _ _ _ _ hm
  · rw [if_neg hp]
    exact hm

theorem selFold_snoc (p : VersionRow → Prop) [DecidablePred p]
    (rows : List VersionRow) (r : VersionRow) :
    selFold p (rows ++ [r]) =
      if p r then updMax r.crate_id r.num (selFold p rows)
      else selFold p rows := by
  rw [selFold, selFold, List.foldl_append]
  rfl

theorem selNums_snoc (p : VersionRow → Prop) [DecidablePred p]
    (rows : List VersionRow) (r : VersionRow) (pid : Nat) :
    selNums p (rows ++ [r]) pid =
      selNums p rows pid ++
        (if p r ∧ r.crate_id = pid then [r.num] else []) := by
  rw [selNums, selNums, List.filter_append, List.map_append]
  congr 1
  by_cases h : p r ∧ r.crate_id = pid
  · rw [if_pos h]
    simp [List.filter_cons, h]
  · rw [if_neg h]
    simp [List.filter_cons, h]

theorem selFold_max (p : VersionRow → Prop) [DecidablePred p]
    (rows : List VersionRow) (pid : Nat) :
    (∀ m, mGet pid (selFold p rows) = some m →
      m ∈ selNums p rows pid ∧ ∀ v ∈ selNums p rows pid, ¬ vlt m v) ∧
    (mGet pid (selFold p rows) = none → selNums p rows pid = []) := by
  induction rows using List.reverseRecOn with
  | nil =>
    refine ⟨?_, ?_⟩
    · intro m hm
      simp [selFold, mGet] at hm
    · intro _
      simp [selNums]
  | append_singleton rows r ih =>
    rw [selFold_snoc, selNums_snoc]
    by_cases hpr : p r
    · rw [if_pos hpr]
      by_cases hcr : r.crate_id = pid
      · subst hcr
        rw [if_pos ⟨hpr, rfl⟩]
        rw [updMax, mGet_insertWith_self _ _ _ _ (selFold_sorted p rows)]
        refine ⟨?_, ?_⟩
        · intro m hm
          rw [Option.some.injEq] at hm
          cases hold : mGet r.crate_id (selFold p rows) with
          | none =>
            rw [hold] at hm
            simp only [Option.map_none', Option.getD_none] at hm
            rw [ih.2 hold]
            subst hm
            refine ⟨by simp, ?_⟩
            intro v hv
            simp only [List.nil_append, List.mem_singleton] at hv
            subst hv
            exact vlt_irrefl _
          | some w =>
            rw [hold] at hm
            simp only [Option.map_some', Option.getD_some] at hm
            obtain ⟨hw_mem, hw_max⟩ := ih.1 w hold
            by_cases hv : vlt w r.num
            · rw [if_pos hv] at hm
              subst hm
              refine ⟨by simp, ?_⟩
              intro v hvmem
              rcases List.mem_append.mp hvmem with hvs | hvr
              · intro hcon
                exact hw_max v hvs (vlt_trans hv hcon)
              · simp only [List.mem_singleton] at hvr
                subst hvr
                exact vlt_irrefl _
            · rw [if_neg hv] at hm
              subst hm
              refine ⟨List.mem_append_left _ hw_mem, ?_⟩
              intro v hvmem
              rcases List.mem_append.mp hvmem with hvs | hvr
              · exact hw_max v hvs
              · simp only [List.mem_singleton] at hvr
                subst hvr
                exact hv
        · intro hnone
          cases hnone
      · rw [if_neg (fun h => hcr h.2), List.append_nil]
        rw [updMax, mGet_insertWith_ne _ _ _ _ _ (fun h => hcr h.symm)]
        exact ih
    · rw [if_neg hpr, if_neg (fun h => hpr h.1), List.append_nil]
      exact ih

theorem mem_sInsert (x y : Nat) (s : List Nat) :
    x ∈ sInsert y s ↔ x = y ∨ x ∈ s := by
  rw [sInsert]
  by_cases h : y ∈ s
  · rw [if_pos h]
    constructor
    · exact fun hx => Or.inr hx
    · rintro (rfl | hx)
      · exact h
      · exact hx
  · rw [if_neg h]
    simp [List.mem_cons]

theorem foldl_libs_mem (rows : List VersionRow) (s : List Nat) (i : Nat) :
    i ∈ rows.foldl
        (fun s r => if r.has_lib then sInsert r.crate_id s else s) s ↔
      (∃ v ∈ rows, v.crate_id = i ∧ v.has_lib = true) ∨ i ∈ s := by
  induction rows generalizing s with
  | nil => simp
  | cons r t ih =>
    rw [List.foldl_cons]
    by_cases hr : r.has_lib = true
    · rw [if_pos hr, ih, mem_sInsert]
      constructor
      · rintro (⟨v, hv, hvi, hvl⟩ | heq | hs)
        · exact Or.inl ⟨v, List.mem_cons_of_mem _ hv, hvi, hvl⟩
        · exact Or.inl ⟨r, List.mem_cons_self _ _, heq.symm, hr⟩
        · exact Or.inr hs
      · rintro (⟨v, hv, hvi, hvl⟩ | hs)
        · rcases List.mem_cons.mp hv with rfl | hv'
          · exact Or.inr (Or.inl hvi.symm)
          · exact Or.inl ⟨v, hv', hvi, hvl⟩
        · exact Or.inr (Or.inr hs)
    · rw [if_neg hr, ih]
      constructor
      · rintro (⟨v, hv, hvi, hvl⟩ | hs)
        · exact Or.inl ⟨v, List.mem_cons_of_mem _ hv, hvi, hvl⟩
        · exact Or.inr hs
      · rintro (⟨v, hv, hvi, hvl⟩ | hs)
        · rcases List.mem_cons.mp hv with rfl | hv'
          · exact absurd hvl hr
          · exact Or.inl ⟨v, hv', hvi, hvl⟩
        · exact Or.inr hs

theorem mem_ingest_libs (rows : List VersionRow) (i : Nat) :
    i ∈ (ingest rows).libs ↔
      ∃ v ∈ rows, v.crate_id = i ∧ v.has_lib = true := by
  rw [ingest_libs, foldl_libs_mem]
  simp

theorem cratesMap_snoc (rows : List CrateRow) (x : CrateRow) :
    cratesMap (rows ++ [x]) =
      mInsertWith (fun old => old) x.id x (cratesMap rows) := by
  simp [cratesMap, List.foldl_append]

theorem cratesMap_sorted (rows : List CrateRow) :
    mKeysSorted (cratesMap rows) := by
  rw [cratesMap]
  exact foldl_preserves_sorted _
    (fun m e hm => mKeysSorted_insertWith _ _ _ _ hm) _ _
    (by simp [mKeysSorted])

theorem mem_insertWith_keep {β : Type} (k : Nat) (v : β)
    (m : List (Nat × β)) (x : Nat × β) (hx : x ∈ m) :
    x ∈ mInsertWith (fun old => old) k v m := by
  induction m with
  | nil => cases hx
  | cons hd t ih =>
    obtain ⟨k', v'⟩ := hd
    simp only [mInsertWith]
    by_cases h1 : k < k'
    · rw [if_pos h1]
      exact List.mem_cons_of_mem _ hx
    · rw [if_neg h1]
      by_cases h2 : k = k'
      · rw [if_pos h2]
        exact hx
      · rw [if_neg h2]
        rcases List.mem_cons.mp hx with rfl | hx'
        · exact List.mem_cons_self _ _
        · exact List.mem_cons_of_mem _ (ih hx')

theorem mem_insertWith_new {β : Type} (f : β → β) (k : Nat) (v : β)
    (m : List (Nat × β)) (hk : k ∉ mKeys m) :
    (k, v) ∈ mInsertWith f k v m := by
  induction m with
  | nil => simp [mInsertWith]
  | cons hd t ih =>
    obtain ⟨k', v'⟩ := hd
    simp only [mKeys, List.map_cons, List.mem_cons, not_or] at hk
    obtain ⟨hk1, hk2⟩ := hk
    simp only [mInsertWith]
    by_cases h1 : k < k'
    · rw [if_pos h1]
      exact List.mem_cons_self _ _
    · rw [if_neg h1]
      rw [if_neg hk1]
      exact List.mem_cons_of_mem _ (ih hk2)

theorem mem_mKeys_cratesMap (rows : List CrateRow) (i : Nat) :
    i ∈ mKeys (cratesMap rows) ↔ i ∈ rows.map (·.id) := by
  induction rows using List.reverseRecOn with
  | nil => simp [cratesMap, mKeys]
  | append_singleton rows x ih =>
    rw [cratesMap_snoc, mem_mKeys_insertWith, ih, List.map_append]
    simp [or_comm]

theorem mem_cratesMap (rows : List CrateRow)
    (hnd : (rows.map (·.id)).Nodup) (r : CrateRow) (hr : r ∈ rows) :
    (r.id, r) ∈ cratesMap rows := by
  induction rows using List.reverseRecOn with
  | nil => cases hr
  | append_singleton rows x ih =>
    rw [cratesMap_snoc]
    rw [List.map_append, List.nodup_append] at hnd
    obtain ⟨hnd1, _, hdisj⟩ := hnd
    rcases List.mem_append.mp hr with hr' | hr'
    · refine mem_insertWith_keep _ _ _ _ (ih hnd1 hr')
    · simp only [List.mem_singleton] at hr'
      subst hr'
      refine mem_insertWith_new _ _ _ _ ?_
      rw [mem_mKeys_cratesMap]
      intro hmem
      exact hdisj hmem (by simp)

theorem cratesMap_entry (rows : List CrateRow) (k : Nat) (x : CrateRow)
    (hx : (k, x) ∈ cratesMap rows) : x ∈ rows ∧ k = x.id := by
  induction rows using List.reverseRecOn with
  | nil => cases hx
  | append_singleton rows y ih =>
    rw [cratesMap_snoc] at hx
    rcases mem_insertWith_val _ _ _ _ _ hx with h | h | ⟨w, hw, h⟩
    · obtain ⟨h1, h2⟩ := Prod.mk.injEq .. ▸ h
      subst h2
      exact ⟨List.mem_append_right _ (by simp), h1⟩
    · obtain ⟨h1, h2⟩ := ih h
      exact ⟨List.mem_append_left _ h1, h2⟩
    · obtain ⟨h1, h2⟩ := Prod.mk.injEq .. ▸ h
      subst h2
      rw [← h1] at hw
      obtain ⟨h3, h4⟩ := ih hw
      exact ⟨List.mem_append_left _ h3, h4⟩

theorem mem_mKeys_foldl_orInsert {α : Type} (key : α → Nat) (l : List α)
    (m : List (Nat × Nat)) (i : Nat) :
    i ∈ mKeys (l.foldl
        (fun m e => mInsertWith (fun old => old) (key e) 0 m) m) ↔
      (∃ e ∈ l, key e = i) ∨ i ∈ mKeys m := by
  induction l generalizing m with
  | nil => simp
  | cons x t ih =>
    rw [List.foldl_cons, ih, mem_mKeys_insertWith]
    constructor
    · rintro (⟨e, he, hei⟩ | heq | hm)
      · exact Or.inl ⟨e, List.mem_cons_of_mem _ he, hei⟩
      · exact Or.inl ⟨x, List.mem_cons_self _ _, heq.symm⟩
      · exact Or.inr hm
    · rintro (⟨e, he, hei⟩ | hm)
      · rcases List.mem_cons.mp he with rfl | he'
        · exact Or.inr (Or.inl hei.symm)
        · exact Or.inl ⟨e, he', hei⟩
      · exact Or.inr (Or.inr hm)

theorem mem_mKeys_iff_entry {β : Type} (m : List (Nat × β)) (i : Nat) :
    i ∈ mKeys m ↔ ∃ v, (i, v) ∈ m := by
  rw [mKeys, List.mem_map]
  constructor
  · rintro ⟨⟨k, v⟩, hm, rfl⟩
    exact ⟨v, hm⟩
  · rintro ⟨v, hm⟩
    exact ⟨(i, v), hm, rfl⟩

theorem cratesFiltered_sorted (inp : Input) :
    mKeysSorted (cratesFiltered inp) :=
  List.Pairwise.sublist (List.filter_sublist _) (cratesMap_sorted inp.crates)

/-- C4: a package row appears in the final ranked output iff at least one
of its version rows has the `has_lib` flag set; a package with versions but
no library-target version is absent from the output regardless of its
dependency count.  The hypotheses state that crate ids and names are unique
across the crate rows, as they are in the dump. -/
theorem claim_c4_lib_filter (inp : Input) (r : CrateRow)
    (hr : r ∈ inp.crates)
    (hid : (inp.crates.map (·.id)).Nodup)
    (hname : (inp.crates.map (·.name)).Nodup) :
    (∃ c ∈ processModel inp, c.name = r.name) ↔
      ∃ v ∈ inp.versions, v.crate_id = r.id ∧ v.has_lib = true := by
  constructor
  · rintro ⟨c, hc, hcn⟩
    rw [processModel_eq_filterMap] at hc
    rcases List.mem_filterMap.mp hc with ⟨e, _, he⟩
    rcases Option.map_eq_some'.mp he with ⟨row, hrow, hcr⟩
    have hent : (e.1, row) ∈ cratesFiltered inp := mem_of_mGet _ _ _ hrow
    rw [cratesFiltered, List.mem_filter] at hent
    obtain ⟨hmap, hlib⟩ := hent
    obtain ⟨hrows, _⟩ := cratesMap_entry _ _ _ hmap
    have hrn : row.name = r.name := by rw [← hcn, ← hcr]; rfl
    have hreq : row = r :=
      List.inj_on_of_nodup_map hname hrows hr hrn
    subst hreq
    rw [decide_eq_true_eq] at hlib
    exact (mem_ingest_libs inp.versions row.id).mp hlib
  · intro hv
    have hlib : r.id ∈ (ingest inp.versions).libs :=
      (mem_ingest_libs inp.versions r.id).mpr hv
    have hmap : (r.id, r) ∈ cratesMap inp.crates :=
      mem_cratesMap inp.crates hid r hr
    have hfil : (r.id, r) ∈ cratesFiltered inp := by
      rw [cratesFiltered, List.mem_filter]
      exact ⟨hmap, by simpa using hlib⟩
    have hget : mGet r.id (cratesFiltered inp) = some r :=
      mGet_of_mem _ _ _ (cratesFiltered_sorted inp) hfil
    have hkey : r.id ∈ mKeys (countMap inp) := by
      simp only [countMap]
      rw [mem_mKeys_foldl_orInsert (fun e : Nat × CrateRow => e.2.id)]
      exact Or.inl ⟨(r.id, r), hfil, rfl⟩
    rcases (mem_mKeys_iff_entry _ _).mp hkey with ⟨cnt, hcnt⟩
    have hrank : (r.id, cnt) ∈ rankedEntries inp :=
      (mem_sortDesc _ _).mpr hcnt
    refine ⟨mkCrate cnt r (ingest inp.versions)
      (versionCountMap inp.default_versions)
      (crateKeywordsMap inp.crates_keywords)
      (crateCategoriesMap inp.crates_categories), ?_, rfl⟩
    rw [processModel_eq_filterMap]
    refine List.mem_filterMap.mpr ⟨(r.id, cnt), hrank, ?_⟩
    rw [hget]
    rfl

theorem claim_c4_lib_filter_witness :
    (∃ c ∈ processModel exInput,
        c.name = [98]) ↔
      ∃ v ∈ exInput.versions, v.crate_id = 1 ∧ v.has_lib = true :=
  claim_c4_lib_filter exInput
    { id := 1, name := [98], description := [100], repository := none,
      homepage := none, documentation := none }
    (by decide) (by decide) (by decide)

/-- C5: for every input whose crate rows carry distinct names (as in the
dump) and every crate row `r`, each emitted record bearing `r`'s name has
`latest_stable_version` and `latest_version` equal to the renderings of the
two independently tracked maps at `r`'s own id; the stable map holds a
maximum, by semantic-version precedence, over `r`'s versions with empty
pre-release and the other map a maximum over `r`'s versions with non-empty
pre-release, each map having an entry exactly when the corresponding subset
is non-empty (first conjunct); and an existing entry of either map is
replaced exactly when the newly seen version is strictly greater (second
and third conjuncts). -/
theorem claim_c5_latest_maxima (inp : Input) (r : CrateRow)
    (hname : (inp.crates.map (·.name)).Nodup)
    (hr : r ∈ inp.crates) :
    (∀ c ∈ processModel inp, c.name = r.name →
      c.latest_stable_version =
        (mGet r.id (ingest inp.versions).stable_versions).map vRender ∧
      c.latest_version =
        (mGet r.id (ingest inp.versions).versions).map vRender ∧
      (∀ m, mGet r.id (ingest inp.versions).stable_versions = some m →
        m ∈ stableNums inp.versions r.id ∧
        ∀ v ∈ stableNums inp.versions r.id, ¬ vlt m v) ∧
      (mGet r.id (ingest inp.versions).stable_versions = none →
        stableNums inp.versions r.id = []) ∧
      (∀ m, mGet r.id (ingest inp.versions).versions = some m →
        m ∈ preNums inp.versions r.id ∧
        ∀ v ∈ preNums inp.versions r.id, ¬ vlt m v) ∧
      (mGet r.id (ingest inp.versions).versions = none →
        preNums inp.versions r.id = [])) ∧
    (∀ (rows : List VersionRow) (vr : VersionRow) (old : Version),
      vr.num.pre = [] →
      mGet vr.crate_id (ingest rows).stable_versions = some old →
      mGet vr.crate_id (ingest (rows ++ [vr])).stable_versions =
        some (if vlt old vr.num then vr.num else old)) ∧
    (∀ (rows : List VersionRow) (vr : VersionRow) (old : Version),
      vr.num.pre ≠ [] →
      mGet vr.crate_id (ingest rows).versions = some old →
      mGet vr.crate_id (ingest (rows ++ [vr])).versions =
        some (if vlt old vr.num then vr.num else old)) := by
  refine ⟨?_, ?_, ?_⟩
  · intro c hc hcn
    rw [processModel_eq_filterMap] at hc
    rcases List.mem_filterMap.mp hc with ⟨e, _, he⟩
    rcases Option.map_eq_some'.mp he with ⟨row, hrow, hcr⟩
    have hent : (e.1, row) ∈ cratesFiltered inp := mem_of_mGet _ _ _ hrow
    rw [cratesFiltered, List.mem_filter] at hent
    obtain ⟨hmap, _⟩ := hent
    obtain ⟨hrows, _⟩ := cratesMap_entry _ _ _ hmap
    have hrn : row.name = r.name := by rw [← hcn, ← hcr]; rfl
    have hreq : row = r := List.inj_on_of_nodup_map hname hrows hr hrn
    subst hreq
    refine ⟨?_, ?_, ?_, ?_, ?_, ?_⟩
    · rw [← hcr]; rfl
    · rw [← hcr]; rfl
    · rw [ingest_stable]
      exact (selFold_max _ inp.versions row.id).1
    · rw [ingest_stable]
      exact (selFold_max _ inp.versions row.id).2
    · rw [ingest_versions]
      exact (selFold_max _ inp.versions row.id).1
    · rw [ingest_versions]
      exact (selFold_max _ inp.versions row.id).2
  · intro rows vr old hpre hold
    rw [ingest_stable] at hold ⊢
    rw [selFold_snoc, if_pos hpre]
    rw [updMax, mGet_insertWith_self _ _ _ _ (selFold_sorted _ rows)]
    rw [hold]
    rfl
  · intro rows vr old hpre hold
    rw [ingest_versions] at hold ⊢
    rw [selFold_snoc, if_pos hpre]
    rw [updMax, mGet_insertWith_self _ _ _ _ (selFold_sorted _ rows)]
    rw [hold]
    rfl

theorem claim_c5_latest_maxima_witness :
    (some [49, 46, 50, 46, 48] : Option (List Nat)) =
      (mGet 1 (ingest exInput.versions).stable_versions).map vRender ∧
    (some [50, 46, 48, 46, 48, 45, 97, 108, 112, 104, 97, 46, 49] :
        Option (List Nat)) =
      (mGet 1 (ingest exInput.versions).versions).map vRender ∧
    (∀ m, mGet 1 (ingest exInput.versions).stable_versions = some m →
      m ∈ stableNums exInput.versions 1 ∧
      ∀ v ∈ stableNums exInput.versions 1, ¬ vlt m v) ∧
    (mGet 1 (ingest exInput.versions).stable_versions = none →
      stableNums exInput.versions 1 = []) ∧
    (∀ m, mGet 1 (ingest exInput.versions).versions = some m →
      m ∈ preNums exInput.versions 1 ∧
      ∀ v ∈ preNums exInput.versions 1, ¬ vlt m v) ∧
    (mGet 1 (ingest exInput.versions).versions = none →
      preNums exInput.versions 1 = []) :=
  (claim_c5_latest_maxima exInput
      { id := 1, name := [98], description := [100], repository := none,
        homepage := none, documentation := none }
      (by decide) (by decide)).1
    { name := [98], repository := none, homepage := none,
      documentation := none, description := [100],
      latest_stable_version := some [49, 46, 50, 46, 48],
      latest_version :=
        some [50, 46, 48, 46, 48, 45, 97, 108, 112, 104, 97, 46, 49],
      categories := [], keywords := [5, 6], num_versions := 3, order := 1 }
    (by decide) (by decide)
